import Mathlib

/-!
Verification of the Code-Pile usenet archive-to-thread reconstruction engine.

The repository ships the file-level driver (`codepile/usenet/usenet.py`,
`UsenetDataset.process`); the reconstruction engine it calls
(`mbox.process_forum`, the pattern automaton, thread assembly, content
filtering and export) is referenced but its source file is not part of the
repository snapshot, so those components are modelled from the
specification, as indicated on each definition.
-/

namespace CodePile

/-- Modelled from the spec: the data model of §3 for one parsed email
(`MailRecord`): `id`, optional `inReplyTo`, ordered `references`,
`subject`, `author`, `timestamp` (absent when missing/unparsable, modelled
as seconds since epoch) and decoded plaintext `body`.  The source file
defining `MailRecord` (the `mbox` module) is missing from the snapshot. -/
structure MailRecord where
  id : String
  inReplyTo : Option String
  references : List String
  subject : String
  author : String
  timestamp : Option Nat
  body : String
deriving DecidableEq, Repr

/-- Modelled from the spec: the intra-thread comparison key of §4.3 step 4:
timestamp ascending, records with missing timestamps after all timestamped
records, ties broken by lexical order of `id`.  Encoded lexicographically:
first a flag (present timestamps before missing ones), then the timestamp
value, then the id. -/
def sortKey (r : MailRecord) : Nat ×ₗ (Nat ×ₗ String) :=
  toLex (r.timestamp.elim 1 (fun _ => 0), toLex (r.timestamp.getD 0, r.id))

/-- Modelled from the spec: the Boolean comparison used by the
intra-thread sort. -/
def keyLE (a b : MailRecord) : Bool :=
  decide (sortKey a ≤ sortKey b)

instance keyLERel_total : IsTotal MailRecord (fun a b => keyLE a b = true) :=
  ⟨fun a b => by
    rcases le_total (sortKey a) (sortKey b) with h | h
    · exact Or.inl (by simp [keyLE, h])
    · exact Or.inr (by simp [keyLE, h])⟩

instance keyLERel_trans : IsTrans MailRecord (fun a b => keyLE a b = true) :=
  ⟨fun a b c hab hbc => by
    simp only [keyLE, decide_eq_true_eq] at hab hbc ⊢
    exact le_trans hab hbc⟩

/-- Modelled from the spec: the deterministic intra-thread sort of
§4.3 step 4 (timestamp ascending, missing last, ties by lexical id). -/
def sortRecs (l : List MailRecord) : List MailRecord :=
  l.insertionSort (fun a b => keyLE a b = true)

/-- Modelled from the spec: duplicate-id elimination of §4.3 edge cases —
the second occurrence of an id is treated as a `ParseError`-equivalent and
dropped with a count; only the first occurrence is kept. -/
def dedupeGo (seen : List String) : List MailRecord → List MailRecord × Nat
  | [] => ([], 0)
  | r :: rest =>
    if r.id ∈ seen then
      let p := dedupeGo seen rest
      (p.1, p.2 + 1)
    else
      let p := dedupeGo (r.id :: seen) rest
      (r :: p.1, p.2)

/-- Modelled from the spec: drop later records whose `id` was already seen,
counting the drops, so that assembly sees unique ids. -/
def dedupe (l : List MailRecord) : List MailRecord × Nat :=
  dedupeGo [] l

/-! ### Pattern matching (spec §4.1) -/
/-- Modelled from the spec: text normalization for matching — lowercase
only, no other transformation (§4.1). -/
def lowerChars (s : String) : List Char :=
  s.data.map Char.toLower

/-- Modelled from the spec: does any pattern occur at the start of `t`. -/
def headOcc (pats : List (List Char)) (t : List Char) : Bool :=
  pats.any (fun p => p.isPrefixOf t)

/-- Modelled from the spec: the multi-pattern scan — one pass over the
text, reporting whether any pattern occurs at any position.  (The spec
mandates an automaton for complexity reasons; functionally it is the
any-substring test, which is what this model captures.) -/
def scanFrom (pats : List (List Char)) : List Char → Bool
  | [] => headOcc pats []
  | c :: rest => headOcc pats (c :: rest) || scanFrom pats rest

/-- Modelled from the spec: the immutable multi-pattern matcher of §4.1,
built once from the disallowed-string dictionary.  The automaton source
file is missing from the snapshot. -/
structure PatternAutomaton where
  pats : List (List Char)
deriving DecidableEq, Repr

/-- Modelled from the spec: `build(patterns)` — patterns are stored
lowercased so that matching is case-insensitive. -/
def PatternAutomaton.build (dict : List String) : PatternAutomaton :=
  ⟨dict.map lowerChars⟩

/-- Modelled from the spec: `match(text)` — whether any pattern occurs as
a substring of the text, case-insensitively. -/
def PatternAutomaton.matchText (aut : PatternAutomaton) (text : String) : Bool :=
  scanFrom aut.pats (lowerChars text)

/-! ### Thread assembly (spec §4.3) -/
/-- Modelled from the spec: the ids of the indexed record set. -/
def idsOf (recs : List MailRecord) : List String :=
  recs.map (fun r => r.id)

/-- Modelled from the spec: whether `i` names a known id (§4.3 step 1). -/
def isKnown (recs : List MailRecord) (i : String) : Bool :=
  recs.any (fun r => decide (r.id = i))

/-- Modelled from the spec: whitespace characters collapsed by subject
normalization. -/
def isWSChar (c : Char) : Bool :=
  decide (c = ' ') || decide (c = '\t') || decide (c = '\n') || decide (c = '\r')

/-- Modelled from the spec: strip reply/forward markers from the front of
an (already lowercased) subject, repeatedly. -/
def stripMarksGo : Nat → List Char → List Char
  | 0, l => l
  | n+1, l =>
    let t := l.dropWhile isWSChar
    if List.isPrefixOf ['r', 'e', ':'] t then stripMarksGo n (t.drop 3)
    else if List.isPrefixOf ['f', 'w', 'd', ':'] t then stripMarksGo n (t.drop 4)
    else if List.isPrefixOf ['f', 'w', ':'] t then stripMarksGo n (t.drop 3)
    else t

/-- Modelled from the spec: collapse whitespace runs to a single space. -/
def squeezeWS : List Char → List Char
  | [] => []
  | [c] => [if isWSChar c then ' ' else c]
  | c :: d :: rest =>
    if isWSChar c && isWSChar d then squeezeWS (d :: rest)
    else (if isWSChar c then ' ' else c) :: squeezeWS (d :: rest)

/-- Modelled from the spec: trim leading and trailing whitespace. -/
def trimWS (l : List Char) : List Char :=
  ((l.dropWhile isWSChar).reverse.dropWhile isWSChar).reverse

/-- Modelled from the spec: `normalizedSubject` — strip reply/forward
markers, collapse whitespace, lowercase (§3). -/
def normalizeSubject (s : String) : String :=
  String.mk (trimWS (squeezeWS (stripMarksGo s.length (lowerChars s))))

/-- Modelled from the spec: is `s` a candidate fallback parent for `r` —
same normalized subject, strictly earlier timestamp, gap within the
configured window (§4.3 step 2c). -/
def subjCand (window : Nat) (r s : MailRecord) : Bool :=
  match s.timestamp, r.timestamp with
  | some ts, some tr =>
    decide (s.id ≠ r.id) && decide (ts < tr) && decide (tr - ts ≤ window) &&
      decide (normalizeSubject s.subject = normalizeSubject r.subject)
  | _, _ => false

/-- Modelled from the spec: of two candidates, keep the more recent one
(deterministic: later timestamp, ties by lexically larger id). -/
def pickLater (a b : MailRecord) : MailRecord :=
  if keyLE a b then b else a

/-- Modelled from the spec: accumulate the best candidate so far. -/
def pickAcc (acc : Option MailRecord) (s : MailRecord) : Option MailRecord :=
  match acc with
  | none => some s
  | some a => some (pickLater a s)

/-- Modelled from the spec: the most recent prior record sharing the
normalized subject within the window (§4.3 step 2c). -/
def fallbackParent (window : Nat) (recs : List MailRecord) (r : MailRecord) :
    Option String :=
  ((recs.filter (fun s => subjCand window r s)).foldl pickAcc none).map
    (fun s => s.id)

/-- Modelled from the spec: the outcome of parent resolution for one
record — the resolved parent id, if any, and whether the record is an
orphan root (reply markers present but unresolvable, §4.3 step 3). -/
structure ParentRes where
  parent : Option String
  orphan : Bool
deriving DecidableEq, Repr

/-- Modelled from the spec: the last entry of `references` that names a
known id (§4.3 step 2b). -/
def lastKnownRef (recs : List MailRecord) (r : MailRecord) : Option String :=
  (r.references.filter (fun i => isKnown recs i)).getLast?

/-- Modelled from the spec: whether the record declares a parent
syntactically (an `inReplyTo` header or a nonempty `references` list). -/
def hasMarker (r : MailRecord) : Bool :=
  r.inReplyTo.isSome || !r.references.isEmpty

/-- Modelled from the spec: resolution steps (b)–(d) of §4.3 step 2 after
`inReplyTo` failed to resolve: last known reference, else — if reply
markers were present — an orphan root (§4.3 step 3, which overrides the
subject fallback for marker-bearing records so that the orphan rule of
the spec holds), else the subject fallback, else a plain root.  A record
referencing itself is treated as having no resolvable parent. -/
def resolveTail (window : Nat) (recs : List MailRecord) (r : MailRecord) :
    ParentRes :=
  match lastKnownRef recs r with
  | some j => if j = r.id then ⟨none, false⟩ else ⟨some j, false⟩
  | none =>
    if hasMarker r then ⟨none, true⟩
    else
      match fallbackParent window recs r with
      | some p => ⟨some p, false⟩
      | none => ⟨none, false⟩

/-- Modelled from the spec: parent resolution in priority order (§4.3
step 2): (a) `inReplyTo` if it names a known id (self-reference makes the
record a root), then the steps of `resolveTail`. -/
def resolveParent (window : Nat) (recs : List MailRecord) (r : MailRecord) :
    ParentRes :=
  match r.inReplyTo with
  | some i =>
    if isKnown recs i then
      if i = r.id then ⟨none, false⟩ else ⟨some i, false⟩
    else resolveTail window recs r
  | none => resolveTail window recs r

/-- Modelled from the spec: the parent-pointer map on ids (§9: arena of
records indexed by id with parent relations as id references). -/
def parentOf (window : Nat) (recs : List MailRecord) (i : String) :
    Option String :=
  (recs.find? (fun r => decide (r.id = i))).bind
    (fun r => (resolveParent window recs r).parent)

/-- Iterated application of a parent-pointer map. -/
def iterParent (p : String → Option String) : Nat → String → Option String
  | 0, x => some x
  | n+1, x => (p x).bind (fun y => iterParent p n y)

/-- The ancestor chain of `x` under parent map `p`, cut off at `n` steps. -/
def ancSet (p : String → Option String) : Nat → String → Finset String
  | 0, x => {x}
  | n+1, x =>
    match p x with
    | none => {x}
    | some q => insert x (ancSet p n q)

/-- The chain of `x` has stabilized at step `n`: the next step is either
exhausted or stays inside the ancestor set collected so far. -/
def stabAt (p : String → Option String) (n : Nat) (x : String) : Prop :=
  iterParent p (n+1) x = none ∨
    ∃ y, iterParent p (n+1) x = some y ∧ y ∈ ancSet p n x

/-! ### Root keys and thread grouping -/
/-- Modelled from the spec: the known ids, as a finite set. -/
def idsFin (recs : List MailRecord) : Finset String :=
  (idsOf recs).toFinset

/-- Modelled from the spec: the chain-length bound used to saturate
ancestor chains — the number of distinct known ids. -/
def fuelOf (recs : List MailRecord) : Nat :=
  (idsFin recs).card

/-- Modelled from the spec: the saturated ancestor set of an id under the
resolved parent-pointer map. -/
def ancestors (window : Nat) (recs : List MailRecord) (x : String) :
    Finset String :=
  ancSet (parentOf window recs) (fuelOf recs) x

/-- Modelled from the spec: whether the parent chain of `x` returns to
`x` (i.e. `x` lies on a reference cycle). -/
def selfReach (window : Nat) (recs : List MailRecord) (x : String) : Bool :=
  match parentOf window recs x with
  | none => false
  | some q => decide (x ∈ ancestors window recs q)

/-- Modelled from the spec: `x` is a terminal of its chain — either a
parentless root, or a member of a reference cycle. -/
def isTerminal (window : Nat) (recs : List MailRecord) (x : String) : Bool :=
  (parentOf window recs x).isNone || selfReach window recs x

/-- Modelled from the spec: the terminals reachable from `x`. -/
def termSet (window : Nat) (recs : List MailRecord) (x : String) :
    Finset String :=
  (ancestors window recs x).filter (fun y => isTerminal window recs y = true)

/-- Modelled from the spec: the canonical root label of the thread of
`x` — the first known id that is a terminal of the chain of `x` (for a
well-formed forest this is the id of the root record of the tree
containing `x`).  It depends only on the terminal set, so all records of
one tree share it. -/
def rootKey (window : Nat) (recs : List MailRecord) (x : String) :
    Option String :=
  ((idsOf recs).filter (fun y => decide (y ∈ termSet window recs x))).head?

/-- Modelled from the spec: a reconstructed thread (§3): root id, orphan
flag, source file, and the member records in deterministic export order. -/
structure Thread where
  rootId : Option String
  orphan : Bool
  sourceFile : String
  records : List MailRecord
deriving DecidableEq, Repr

/-- Modelled from the spec: the root label of the thread a record falls
into. -/
def recKey (window : Nat) (recs : List MailRecord) (r : MailRecord) :
    Option String :=
  rootKey window recs r.id

/-- Modelled from the spec: the thread with root label `k` — its members
are the records whose chains share that label, ordered by the
deterministic intra-thread sort; the orphan flag is the orphan flag of
the root record (§3: true when the root's apparent parent reference
points outside the known record set). -/
def mkThread (window : Nat) (sourceFile : String) (recs : List MailRecord)
    (k : Option String) : Thread :=
  { rootId := k
    orphan :=
      (match k with
        | some kid =>
          ((recs.find? (fun r => decide (r.id = kid))).map
            (fun root => (resolveParent window recs root).orphan)).getD false
        | none => false)
    sourceFile := sourceFile
    records := sortRecs (recs.filter (fun r => decide (recKey window recs r = k))) }

/-- Modelled from the spec: `ThreadAssembler.assemble` (§4.3): drop
duplicate ids (keeping first occurrences, counting drops), resolve
parents, group records into threads by the root label of their chains,
and sort each thread deterministically.  Returns the threads and the
duplicate count. -/
def assemble (window : Nat) (sourceFile : String) (input : List MailRecord) :
    List Thread × Nat :=
  let d := dedupe input
  let recs := d.1
  let keys := (recs.map (fun r => recKey window recs r)).dedup
  (keys.map (fun k => mkThread window sourceFile recs k), d.2)

/-! ### Content filtering and export (spec §4.4, §4.5) -/
/-- Modelled from the spec: one position of a filtered thread — either a
kept record or a positional marker for a dropped one (§9: the tagged
variant `Kept(record)` / `Dropped(id)`). -/
inductive FilterEntry where
  | kept (r : MailRecord)
  | dropped (id : String)
deriving DecidableEq, Repr

/-- Modelled from the spec: a thread after content filtering — the
structural data unchanged, each position now a `FilterEntry`. -/
structure FilteredThread where
  rootId : Option String
  orphan : Bool
  sourceFile : String
  entries : List FilterEntry
deriving DecidableEq, Repr

/-- Modelled from the spec: `ContentFilter.filter` (§4.4) — mark each
record whose body matches the automaton as dropped, in place; nothing is
removed from the ordering. -/
def filterThread (aut : PatternAutomaton) (t : Thread) : FilteredThread :=
  { rootId := t.rootId
    orphan := t.orphan
    sourceFile := t.sourceFile
    entries := t.records.map (fun r =>
      if aut.matchText r.body then FilterEntry.dropped r.id
      else FilterEntry.kept r) }

/-- Modelled from the spec: the surviving records, in thread order. -/
def keptRecords (ft : FilteredThread) : List MailRecord :=
  ft.entries.filterMap (fun e =>
    match e with
    | FilterEntry.kept r => some r
    | FilterEntry.dropped _ => none)

/-- Modelled from the spec: a timestamp rendered with an explicit
placeholder when missing (§4.5). -/
def renderTime : Option Nat → String
  | none => "[unknown time]"
  | some t => toString t

/-- Modelled from the spec: an author rendered with an explicit
placeholder when unknown (§4.5). -/
def renderAuthor (a : String) : String :=
  if a = "" then "[unknown author]" else a

/-- Modelled from the spec: one attributed block of the export — author,
timestamp if known, body (§4.5). -/
def renderBlock (r : MailRecord) : String :=
  renderAuthor r.author ++ " | " ++ renderTime r.timestamp ++ "\n" ++
    r.body ++ "\n\n"

/-- Modelled from the spec: `exportText` — the surviving records'
attributed blocks concatenated in thread order (§4.5). -/
def exportString (ft : FilteredThread) : String :=
  String.join ((keptRecords ft).map renderBlock)

/-- Modelled from the spec: a thread in which every record was dropped. -/
def allDropped (ft : FilteredThread) : Bool :=
  (keptRecords ft).isEmpty

/-- Modelled from the spec: the number of dropped records. -/
def droppedOf (ft : FilteredThread) : Nat :=
  ft.entries.length - (keptRecords ft).length

/-- Modelled from the spec: the participants of the surviving records. -/
def participantsOf (ft : FilteredThread) : List String :=
  ((keptRecords ft).map (fun r => renderAuthor r.author)).dedup

/-- Modelled from the spec: `exportMetadata` (§4.5) — messageCount,
droppedCount, participants, start/end time, sourceFile and orphan flag,
missing fields as explicit placeholders, rendered as key/value pairs. -/
def metaOf (ft : FilteredThread) : List (String × String) :=
  [("messageCount", toString (keptRecords ft).length),
   ("droppedCount", toString (droppedOf ft)),
   ("participants", String.intercalate ", " (participantsOf ft)),
   ("startTime",
     ((keptRecords ft).head?.map (fun r => renderTime r.timestamp)).getD "[empty]"),
   ("endTime",
     ((keptRecords ft).getLast?.map (fun r => renderTime r.timestamp)).getD "[empty]"),
   ("sourceFile", ft.sourceFile),
   ("orphan", toString ft.orphan)]

/-- Modelled from the spec: per-forum counters reported by the engine. -/
structure ForumCounts where
  duplicates : Nat
  fullyFiltered : Nat
deriving DecidableEq, Repr

/-- Modelled from the spec: separate the surviving threads from the
fully-filtered ones, counting the latter (§4.4). -/
def splitFiltered : List FilteredThread → List FilteredThread × Nat
  | [] => ([], 0)
  | ft :: rest =>
    let p := splitFiltered rest
    if allDropped ft then (p.1, p.2 + 1) else (ft :: p.1, p.2)

/-- Modelled from the spec: `mbox.process_forum` — assemble the records
of one mbox file, filter each thread, exclude (but count) the
fully-filtered threads; the source module is missing from the snapshot. -/
def processForum (window : Nat) (aut : PatternAutomaton) (sourceFile : String)
    (input : List MailRecord) : List FilteredThread × ForumCounts :=
  let a := assemble window sourceFile input
  let s := splitFiltered (a.1.map (fun t => filterThread aut t))
  (s.1, ⟨a.2, s.2⟩)

/-! ### File-level driver (src/codepile/usenet/usenet.py) -/
/-- Translated from the source (`os.path.basename` at usenet.py line
104): the final path component. -/
def basename (s : String) : String :=
  ((s.splitOn "/").getLast?).getD s

/-- Translated from the source (`m_metadata.update(...)` at usenet.py
line 111): replace the value at key `k`, or append the binding if the
key is absent. -/
def upsert (m : List (String × String)) (k v : String) :
    List (String × String) :=
  if (m.find? (fun p => decide (p.1 = k))).isSome then
    m.map (fun p => if p.1 = k then (k, v) else p)
  else m ++ [(k, v)]

/-- One input archive file: its name and the outcome of parsing and
processing it.  Failures of the missing parser code (I/O errors, decode
failures — any exception of the try block) are modelled abstractly as an
`Except` outcome. -/
structure FileInput where
  name : String
  parseResult : Except String (List MailRecord)

/-- Translated from the source (usenet.py lines 102-117): one output row
per thread, pairing the thread's metadata — with `forum_name` set to the
basename of the mbox file — with its exported plain-text content; the
two DataFrame columns are built positionally from the same thread. -/
def rowsOf (name : String) (fts : List FilteredThread) :
    List (List (String × String) × String) :=
  fts.map (fun ft =>
    (upsert (metaOf ft) "forum_name" (basename name), exportString ft))

/-- Translated from the source (usenet.py lines 100-125): one mbox file
inside the try/except boundary — on success its rows and a `Success` log
line carrying the thread count, on any exception no rows and a single
`Error` log line with the file name and message. -/
def processFile (window : Nat) (aut : PatternAutomaton) (fi : FileInput) :
    List (List (String × String) × String) × String :=
  match fi.parseResult with
  | Except.error e => ([], "Error " ++ fi.name ++ ": " ++ e)
  | Except.ok recs =>
    let fts := (processForum window aut fi.name recs).1
    (rowsOf fi.name fts,
      "Success " ++ fi.name ++ ": includes " ++ toString fts.length)

/-- Translated from the source (usenet.py lines 98-125): the loop over
the mbox files of one archive directory; each file contributes its rows
and exactly one log line, and processing continues with the next file
whatever the outcome. -/
def processAll (window : Nat) (aut : PatternAutomaton) :
    List FileInput → List (List (String × String) × String) × List String
  | [] => ([], [])
  | fi :: rest =>
    let h := processFile window aut fi
    let t := processAll window aut rest
    (h.1 ++ t.1, h.2 :: t.2)

/-- Modelled from the spec: `get_bad_strings_automaton` — load the
dictionary and build the automaton, failing with a `ConfigurationError`
when the pattern set is empty (§4.1, §7); the loader's source module is
missing from the snapshot. -/
def getBadStringsAutomaton (dict : List String) :
    Except String PatternAutomaton :=
  if dict.isEmpty then
    Except.error "ConfigurationError: empty pattern dictionary"
  else Except.ok (PatternAutomaton.build dict)

/-- Translated from the source (usenet.py lines 62-127,
`UsenetDataset.process`): the automaton is built once, at line 70,
before the file loop; a failure there aborts the run before any file; a
success makes the per-file loop run to completion with the one shared
automaton. -/
def runUsenet (window : Nat) (dict : List String) (files : List FileInput) :
    Except String (List (List (String × String) × String) × List String) :=
  match getBadStringsAutomaton dict with
  | Except.error e => Except.error e
  | Except.ok aut => Except.ok (processAll window aut files)

/-! ### Theorems -/

theorem keyLE_trans (a b c : MailRecord) (hab : keyLE a b = true)
    (hbc : keyLE b c = true) : keyLE a c = true := by
  simp only [keyLE, decide_eq_true_eq] at hab hbc ⊢
  exact le_trans hab hbc

theorem keyLE_total (a b : MailRecord) : (keyLE a b || keyLE b a) = true := by
  simp only [keyLE, Bool.or_eq_true, decide_eq_true_eq]
  exact le_total (sortKey a) (sortKey b)

theorem keyLE_antisymm_id (a b : MailRecord) (hab : keyLE a b = true)
    (hba : keyLE b a = true) : a.id = b.id := by
  simp only [keyLE, decide_eq_true_eq] at hab hba
  have hk : sortKey a = sortKey b := le_antisymm hab hba
  exact congrArg (fun p => (ofLex (ofLex p).2).2) hk

/-- The sort key comparison, spelled out: earlier timestamp first, missing
timestamps after all present ones, equal (or both-missing) timestamps
resolved by lexical id order. -/
theorem keyLE_iff (a b : MailRecord) :
    keyLE a b = true ↔
      (match a.timestamp, b.timestamp with
        | some x, some y => x < y ∨ (x = y ∧ a.id ≤ b.id)
        | some _, none => True
        | none, some _ => False
        | none, none => a.id ≤ b.id) := by
  simp only [keyLE, decide_eq_true_eq, sortKey]
  rcases ha : a.timestamp with _ | x <;> rcases hb : b.timestamp with _ | y <;>
      simp only [Option.elim, Option.getD, Prod.Lex.le_iff, Prod.Lex.lt_iff] <;> simp

theorem sortRecs_sorted (l : List MailRecord) :
    (sortRecs l).Pairwise (fun a b => keyLE a b = true) :=
  List.sorted_insertionSort _ l

theorem sortRecs_perm (l : List MailRecord) : List.Perm (sortRecs l) l :=
  List.perm_insertionSort _ l

/-- Two sorted lists that are permutations of each other and on which the
order is antisymmetric are equal. -/
theorem sorted_perm_eq {le : MailRecord → MailRecord → Bool} :
    ∀ {l₁ l₂ : List MailRecord}, List.Perm l₁ l₂ →
      l₁.Pairwise (fun a b => le a b = true) →
      l₂.Pairwise (fun a b => le a b = true) →
      (∀ a ∈ l₁, ∀ b ∈ l₁, le a b = true → le b a = true → a = b) →
      l₁ = l₂
  | [], _, hp, _, _, _ => hp.nil_eq
  | a :: t₁, [], hp, _, _, _ => absurd hp.symm (by simp)
  | a :: t₁, b :: t₂, hp, hs₁, hs₂, hanti => by
    have hb₁ : b ∈ a :: t₁ := hp.mem_iff.mpr (by simp)
    have ha₂ : a ∈ b :: t₂ := hp.mem_iff.mp (by simp)
    have hab : a = b := by
      rcases List.mem_cons.mp hb₁ with hb | hb
      · exact hb.symm
      · rcases List.mem_cons.mp ha₂ with ha | ha
        · exact ha
        · have h1 : le a b = true := (List.pairwise_cons.mp hs₁).1 b hb
          have h2 : le b a = true := (List.pairwise_cons.mp hs₂).1 a ha
          exact hanti a (by simp) b (by simp [hb]) h1 h2
    subst hab
    have ht : List.Perm t₁ t₂ := hp.cons_inv
    have := sorted_perm_eq ht (List.pairwise_cons.mp hs₁).2 (List.pairwise_cons.mp hs₂).2
      (fun x hx y hy h1 h2 => hanti x (by simp [hx]) y (by simp [hy]) h1 h2)
    rw [this]

/-- A list whose mapped ids are nodup determines records from their ids. -/
theorem id_inj_of_nodup {l : List MailRecord}
    (h : (l.map (fun r => r.id)).Nodup) :
    ∀ a ∈ l, ∀ b ∈ l, a.id = b.id → a = b := by
  intro a ha b hb hid
  exact List.inj_on_of_nodup_map h ha hb hid

/-- Sorting is a function of the record set only: two permutations of the
same records (with unique ids) sort identically. -/
theorem sortRecs_eq_of_perm {l₁ l₂ : List MailRecord} (hp : List.Perm l₁ l₂)
    (h : (l₁.map (fun r => r.id)).Nodup) :
    sortRecs l₁ = sortRecs l₂ := by
  have hperm : List.Perm (sortRecs l₁) (sortRecs l₂) :=
    (sortRecs_perm l₁).trans (hp.trans (sortRecs_perm l₂).symm)
  refine sorted_perm_eq hperm (sortRecs_sorted l₁) (sortRecs_sorted l₂) ?_
  intro a ha b hb h1 h2
  have ha' : a ∈ l₁ := (sortRecs_perm l₁).mem_iff.mp ha
  have hb' : b ∈ l₁ := (sortRecs_perm l₁).mem_iff.mp hb
  exact id_inj_of_nodup h a ha' b hb' (keyLE_antisymm_id a b h1 h2)

theorem dedupeGo_sublist (l : List MailRecord) :
    ∀ seen, (dedupeGo seen l).1.Sublist l := by
  induction l with
  | nil => intro seen; simp [dedupeGo]
  | cons r rest ih =>
    intro seen
    by_cases h : r.id ∈ seen
    · simp only [dedupeGo, if_pos h]
      exact (ih seen).cons r
    · simp only [dedupeGo, if_neg h]
      exact (ih (r.id :: seen)).cons₂ r

theorem dedupeGo_mem_id (l : List MailRecord) :
    ∀ seen, ∀ r ∈ (dedupeGo seen l).1, r.id ∉ seen := by
  induction l with
  | nil => intro seen; simp [dedupeGo]
  | cons a rest ih =>
    intro seen r hr
    by_cases h : a.id ∈ seen
    · simp only [dedupeGo, if_pos h] at hr
      exact ih seen r hr
    · simp only [dedupeGo, if_neg h] at hr
      rcases List.mem_cons.mp hr with hr | hr
      · subst hr; exact h
      · have := ih (a.id :: seen) r hr
        intro hmem
        exact this (by simp [hmem])

theorem dedupeGo_nodup (l : List MailRecord) :
    ∀ seen, ((dedupeGo seen l).1.map (fun r => r.id)).Nodup := by
  induction l with
  | nil => intro seen; simp [dedupeGo]
  | cons a rest ih =>
    intro seen
    by_cases h : a.id ∈ seen
    · simp only [dedupeGo, if_pos h]
      exact ih seen
    · simp only [dedupeGo, if_neg h, List.map_cons, List.nodup_cons]
      refine ⟨?_, ih (a.id :: seen)⟩
      intro hmem
      rcases List.mem_map.mp hmem with ⟨r, hr, hid⟩
      have := dedupeGo_mem_id rest (a.id :: seen) r hr
      exact this (by simp [hid])

theorem dedupeGo_count (l : List MailRecord) :
    ∀ seen, (dedupeGo seen l).2 + (dedupeGo seen l).1.length = l.length := by
  induction l with
  | nil => intro seen; simp [dedupeGo]
  | cons a rest ih =>
    intro seen
    by_cases h : a.id ∈ seen
    · simp only [dedupeGo, if_pos h, List.length_cons]
      have := ih seen
      omega
    · simp only [dedupeGo, if_neg h, List.length_cons]
      have := ih (a.id :: seen)
      omega

theorem dedupeGo_find (l : List MailRecord) (i : String) :
    ∀ seen, i ∉ seen →
      (dedupeGo seen l).1.find? (fun r => r.id = i) =
        l.find? (fun r => r.id = i) := by
  induction l with
  | nil => intro seen _; simp [dedupeGo]
  | cons a rest ih =>
    intro seen hi
    by_cases h : a.id ∈ seen
    · simp only [dedupeGo, if_pos h]
      have hne : ¬ (a.id = i) := fun he => hi (he ▸ h)
      rw [List.find?_cons_of_neg _ (by simpa using hne)]
      exact ih seen hi
    · simp only [dedupeGo, if_neg h]
      by_cases he : a.id = i
      · rw [List.find?_cons_of_pos _ (by simpa using he),
          List.find?_cons_of_pos _ (by simpa using he)]
      · rw [List.find?_cons_of_neg _ (by simpa using he),
          List.find?_cons_of_neg _ (by simpa using he)]
        refine ih (a.id :: seen) ?_
        intro hc
        rcases List.mem_cons.mp hc with hc | hc
        · exact he hc.symm
        · exact hi hc

theorem dedupe_of_nodup {l : List MailRecord}
    (h : (l.map (fun r => r.id)).Nodup) : dedupe l = (l, 0) := by
  unfold dedupe
  have hgen : ∀ (l' : List MailRecord), (l'.map (fun r => r.id)).Nodup →
      ∀ seen, (∀ r ∈ l', r.id ∉ seen) → dedupeGo seen l' = (l', 0) := by
    intro l'
    induction l' with
    | nil => intro _ seen _; simp [dedupeGo]
    | cons a rest ih =>
      intro hnd seen hseen
      have ha : a.id ∉ seen := hseen a (by simp)
      simp only [dedupeGo, if_neg ha]
      have hnd' : a.id ∉ rest.map (fun r => r.id) ∧
          (rest.map (fun r => r.id)).Nodup := by
        rw [List.map_cons, List.nodup_cons] at hnd
        exact hnd
      have := ih hnd'.2 (a.id :: seen) ?_
      · rw [this]
      · intro r hr
        intro hmem
        rcases List.mem_cons.mp hmem with hc | hc
        · exact hnd'.1 (hc ▸ List.mem_map_of_mem _ hr)
        · exact hseen r (by simp [hr]) hc
  exact hgen l h [] (by simp)

theorem headOcc_iff (pats : List (List Char)) (t : List Char) :
    headOcc pats t = true ↔ ∃ p ∈ pats, p.IsPrefix t := by
  simp [headOcc]

theorem scanFrom_iff (pats : List (List Char)) :
    ∀ t : List Char, scanFrom pats t = true ↔ ∃ p ∈ pats, p.IsInfix t := by
  intro t
  induction t with
  | nil =>
    simp only [scanFrom, headOcc_iff]
    constructor
    · rintro ⟨p, hp, hpre⟩
      exact ⟨p, hp, hpre.isInfix⟩
    · rintro ⟨p, hp, hinf⟩
      exact ⟨p, hp, (List.eq_nil_of_infix_nil hinf) ▸ List.nil_prefix⟩
  | cons c rest ih =>
    simp only [scanFrom, Bool.or_eq_true, headOcc_iff, ih, List.infix_cons_iff]
    constructor
    · rintro (⟨p, hp, h⟩ | ⟨p, hp, h⟩)
      · exact ⟨p, hp, Or.inl h⟩
      · exact ⟨p, hp, Or.inr h⟩
    · rintro ⟨p, hp, h | h⟩
      · exact Or.inl ⟨p, hp, h⟩
      · exact Or.inr ⟨p, hp, h⟩

theorem iterParent_succ_right (p : String → Option String) (n : Nat) (x : String) :
    iterParent p (n+1) x = (iterParent p n x).bind p := by
  induction n generalizing x with
  | zero => cases hpx : p x <;> simp [iterParent, hpx]
  | succ n ih =>
    cases hpx : p x with
    | none => simp [iterParent, hpx]
    | some q =>
      calc iterParent p (n+2) x = iterParent p (n+1) q := by simp [iterParent, hpx]
        _ = (iterParent p n q).bind p := ih q
        _ = (iterParent p (n+1) x).bind p := by simp [iterParent, hpx]

theorem mem_ancSet_iff (p : String → Option String) :
    ∀ (n : Nat) (x y : String),
      y ∈ ancSet p n x ↔ ∃ j, j ≤ n ∧ iterParent p j x = some y := by
  intro n
  induction n with
  | zero =>
    intro x y
    simp only [ancSet, Finset.mem_singleton]
    constructor
    · rintro rfl
      exact ⟨0, le_refl 0, rfl⟩
    · rintro ⟨j, hj, hjx⟩
      have : j = 0 := Nat.le_zero.mp hj
      subst this
      exact (Option.some.inj hjx).symm
  | succ n ih =>
    intro x y
    cases hpx : p x with
    | none =>
      simp only [ancSet, hpx, Finset.mem_singleton]
      constructor
      · rintro rfl
        exact ⟨0, Nat.zero_le _, rfl⟩
      · rintro ⟨j, hj, hjx⟩
        cases j with
        | zero => exact (Option.some.inj hjx).symm
        | succ j => simp [iterParent, hpx] at hjx
    | some q =>
      simp only [ancSet, hpx, Finset.mem_insert]
      constructor
      · rintro (rfl | hy)
        · exact ⟨0, Nat.zero_le _, rfl⟩
        · rcases (ih q y).mp hy with ⟨j, hj, hjq⟩
          exact ⟨j+1, Nat.succ_le_succ hj, by simp [iterParent, hpx, hjq]⟩
      · rintro ⟨j, hj, hjx⟩
        cases j with
        | zero => exact Or.inl (Option.some.inj hjx).symm
        | succ j =>
          right
          refine (ih q y).mpr ⟨j, Nat.le_of_succ_le_succ hj, ?_⟩
          simpa [iterParent, hpx] using hjx

theorem iter_in_of_stab (p : String → Option String) (n : Nat) (x : String)
    (h : stabAt p n x) :
    ∀ j, iterParent p j x = none ∨
      ∃ y, iterParent p j x = some y ∧ y ∈ ancSet p n x := by
  intro j
  induction j with
  | zero =>
    right
    exact ⟨x, rfl, (mem_ancSet_iff p n x x).mpr ⟨0, Nat.zero_le n, rfl⟩⟩
  | succ j ih =>
    rcases ih with hnone | ⟨y, hy, hymem⟩
    · left
      rw [iterParent_succ_right, hnone]
      rfl
    · rcases (mem_ancSet_iff p n x y).mp hymem with ⟨i, hi, hix⟩
      have hstep : iterParent p (j+1) x = iterParent p (i+1) x := by
        rw [iterParent_succ_right, iterParent_succ_right, hy, hix]
      rcases Nat.lt_or_ge i n with hlt | hge
      · rw [hstep]
        cases hpi : iterParent p (i+1) x with
        | none => exact Or.inl rfl
        | some z =>
          exact Or.inr ⟨z, rfl, (mem_ancSet_iff p n x z).mpr ⟨i+1, by omega, hpi⟩⟩
      · have hieq : i = n := le_antisymm hi hge
        subst hieq
        rw [hstep]
        exact h

theorem ancSet_mono (p : String → Option String) {m n : Nat} (h : m ≤ n)
    (x : String) : ancSet p m x ⊆ ancSet p n x := by
  intro y hy
  rcases (mem_ancSet_iff p m x y).mp hy with ⟨j, hj, hjx⟩
  exact (mem_ancSet_iff p n x y).mpr ⟨j, le_trans hj h, hjx⟩

theorem ancSet_eq_of_stab (p : String → Option String) (n : Nat) (x : String)
    (h : stabAt p n x) {m : Nat} (hm : n ≤ m) :
    ancSet p m x = ancSet p n x := by
  apply Finset.Subset.antisymm
  · intro y hy
    rcases (mem_ancSet_iff p m x y).mp hy with ⟨j, _, hjx⟩
    rcases iter_in_of_stab p n x h j with hnone | ⟨z, hz, hzmem⟩
    · rw [hnone] at hjx
      exact absurd hjx (by simp)
    · rw [hz] at hjx
      exact (Option.some.inj hjx) ▸ hzmem
  · exact ancSet_mono p hm x

theorem card_ancSet_ge (p : String → Option String) (x : String) :
    ∀ k, (∀ j, j < k → ¬ stabAt p j x) → k + 1 ≤ (ancSet p k x).card := by
  intro k
  induction k with
  | zero => intro _; simp [ancSet]
  | succ k ih =>
    intro hns
    have hk := ih (fun j hj => hns j (Nat.lt_succ_of_lt hj))
    have hnot := hns k (Nat.lt_succ_self k)
    unfold stabAt at hnot
    push_neg at hnot
    obtain ⟨hnone, hy⟩ := hnot
    cases hiter : iterParent p (k+1) x with
    | none => exact absurd hiter hnone
    | some y =>
      have hynot : y ∉ ancSet p k x := hy y hiter
      have hymem : y ∈ ancSet p (k+1) x :=
        (mem_ancSet_iff p (k+1) x y).mpr ⟨k+1, le_refl _, hiter⟩
      have hsub : insert y (ancSet p k x) ⊆ ancSet p (k+1) x := by
        intro z hz
        rcases Finset.mem_insert.mp hz with rfl | hz
        · exact hymem
        · exact ancSet_mono p (Nat.le_succ k) x hz
      have hcard := Finset.card_le_card hsub
      rw [Finset.card_insert_of_not_mem hynot] at hcard
      omega

theorem ancSet_subset_ids (p : String → Option String) (U : Finset String)
    (hp : ∀ a b, p a = some b → b ∈ U) :
    ∀ (n : Nat) (x), x ∈ U → ancSet p n x ⊆ U := by
  intro n
  induction n with
  | zero =>
    intro x hx y hy
    rw [show y = x from Finset.mem_singleton.mp hy]
    exact hx
  | succ n ih =>
    intro x hx y hy
    cases hpx : p x with
    | none =>
      simp only [ancSet, hpx, Finset.mem_singleton] at hy
      exact hy ▸ hx
    | some q =>
      simp only [ancSet, hpx, Finset.mem_insert] at hy
      rcases hy with rfl | hy
      · exact hx
      · exact ih q (hp x q hpx) hy

theorem exists_stab (p : String → Option String) (U : Finset String)
    (hp : ∀ a b, p a = some b → b ∈ U) (x : String) (hx : x ∈ U) :
    ∃ j, j ≤ U.card ∧ stabAt p j x := by
  by_contra hcon
  push_neg at hcon
  have hgrow := card_ancSet_ge p x (U.card + 1) (fun j hj => hcon j (by omega))
  have hb := Finset.card_le_card (ancSet_subset_ids p U hp (U.card + 1) x hx)
  omega

theorem ancSet_stable (p : String → Option String) (U : Finset String)
    (hp : ∀ a b, p a = some b → b ∈ U) (x : String) (hx : x ∈ U)
    {m : Nat} (hm : U.card ≤ m) :
    ancSet p m x = ancSet p U.card x := by
  obtain ⟨j, hj, hstab⟩ := exists_stab p U hp x hx
  rw [ancSet_eq_of_stab p j x hstab (le_trans hj hm),
    ancSet_eq_of_stab p j x hstab hj]

theorem isKnown_iff (recs : List MailRecord) (i : String) :
    isKnown recs i = true ↔ ∃ r ∈ recs, r.id = i := by
  simp [isKnown]

theorem mem_idsFin_iff (recs : List MailRecord) (i : String) :
    i ∈ idsFin recs ↔ isKnown recs i = true := by
  simp [idsFin, idsOf, isKnown_iff]

theorem pickLater_cases (a b : MailRecord) : pickLater a b = a ∨ pickLater a b = b := by
  unfold pickLater
  by_cases h : keyLE a b = true
  · exact Or.inr (by rw [if_pos h])
  · exact Or.inl (by rw [if_neg h])

theorem foldl_pickAcc_mem (S : MailRecord → Prop) :
    ∀ (l : List MailRecord) (acc : Option MailRecord),
      (∀ a, acc = some a → S a) → (∀ s ∈ l, S s) →
      ∀ x, l.foldl pickAcc acc = some x → S x := by
  intro l
  induction l with
  | nil =>
    intro acc hacc _ x hx
    exact hacc x hx
  | cons s rest ih =>
    intro acc hacc hl x hx
    simp only [List.foldl_cons] at hx
    cases acc with
    | none =>
      refine ih (some s) ?_ (fun t ht => hl t (by simp [ht])) x hx
      intro a ha
      have : s = a := Option.some.inj ha
      exact this ▸ hl s (by simp)
    | some a =>
      refine ih (pickAcc (some a) s) ?_ (fun t ht => hl t (by simp [ht])) x hx
      intro b hb
      simp only [pickAcc] at hb
      have hpb : pickLater a s = b := Option.some.inj hb
      rcases pickLater_cases a s with hc | hc
      · rw [hc] at hpb
        exact hpb ▸ hacc a rfl
      · rw [hc] at hpb
        exact hpb ▸ hl s (by simp)

theorem fallbackParent_known (window : Nat) (recs : List MailRecord)
    (r : MailRecord) (p : String) (h : fallbackParent window recs r = some p) :
    isKnown recs p = true := by
  unfold fallbackParent at h
  rcases Option.map_eq_some'.mp h with ⟨s, hs, hsp⟩
  have hmem : s ∈ recs := by
    have := foldl_pickAcc_mem (fun t => t ∈ recs)
      (recs.filter (fun s => subjCand window r s)) none (by simp)
      (fun t ht => (List.mem_filter.mp ht).1) s hs
    exact this
  have hp : s.id = p := hsp
  subst hp
  exact isKnown_iff recs s.id |>.mpr ⟨s, hmem, rfl⟩

theorem lastKnownRef_known (recs : List MailRecord) (r : MailRecord)
    (j : String) (h : lastKnownRef recs r = some j) : isKnown recs j = true := by
  unfold lastKnownRef at h
  have hmem := List.mem_of_getLast?_eq_some h
  exact (List.mem_filter.mp hmem).2

theorem resolveTail_known (window : Nat) (recs : List MailRecord)
    (r : MailRecord) (p : String)
    (hres : (resolveTail window recs r).parent = some p) :
    isKnown recs p = true := by
  unfold resolveTail at hres
  split at hres
  · rename_i j hlk
    split at hres
    · exact absurd hres (by simp)
    · simp only [Option.some.injEq] at hres
      exact hres ▸ lastKnownRef_known recs r j hlk
  · rename_i hlk
    split at hres
    · exact absurd hres (by simp)
    · split at hres
      · rename_i q hfb
        simp only [Option.some.injEq] at hres
        exact hres ▸ fallbackParent_known window recs r q hfb
      · exact absurd hres (by simp)

theorem resolveParent_known (window : Nat) (recs : List MailRecord)
    (r : MailRecord) (p : String)
    (h : (resolveParent window recs r).parent = some p) :
    isKnown recs p = true := by
  unfold resolveParent at h
  split at h
  · rename_i i hirt
    split at h
    · rename_i hk
      split at h
      · exact absurd h (by simp)
      · simp only [Option.some.injEq] at h
        exact h ▸ hk
    · exact resolveTail_known window recs r p h
  · exact resolveTail_known window recs r p h

theorem parentOf_known (window : Nat) (recs : List MailRecord) (i j : String)
    (h : parentOf window recs i = some j) : j ∈ idsFin recs := by
  unfold parentOf at h
  rcases Option.bind_eq_some.mp h with ⟨r, _, hres⟩
  exact (mem_idsFin_iff recs j).mpr (resolveParent_known window recs r j hres)

theorem filter_singleton_head {x : String} :
    ∀ l : List String, x ∈ l →
      (l.filter (fun y => decide (y ∈ ({x} : Finset String)))).head? = some x := by
  intro l
  induction l with
  | nil => intro h; cases h
  | cons a rest ih =>
    intro hmem
    by_cases hax : a = x
    · subst hax
      rw [List.filter_cons_of_pos (by simp)]
      rfl
    · rw [List.filter_cons_of_neg (by simp [hax])]
      refine ih ?_
      rcases List.mem_cons.mp hmem with h | h
      · exact absurd h.symm hax
      · exact h

theorem rootKey_of_parentless (window : Nat) (recs : List MailRecord)
    (x : String) (hx : isKnown recs x = true)
    (h : parentOf window recs x = none) :
    rootKey window recs x = some x := by
  have hanc : ∀ n, ancSet (parentOf window recs) n x = {x} := by
    intro n
    cases n with
    | zero => rfl
    | succ n => simp [ancSet, h]
  have hterm : isTerminal window recs x = true := by
    simp [isTerminal, h]
  have htermx : termSet window recs x = {x} := by
    unfold termSet ancestors
    rw [hanc, Finset.filter_singleton, if_pos hterm]
  unfold rootKey
  rw [htermx]
  refine filter_singleton_head (idsOf recs) ?_
  rcases (isKnown_iff recs x).mp hx with ⟨r, hr, hid⟩
  exact hid ▸ List.mem_map_of_mem _ hr

theorem rootKey_parent (window : Nat) (recs : List MailRecord) (x q : String)
    (hx : x ∈ idsFin recs) (h : parentOf window recs x = some q) :
    rootKey window recs x = rootKey window recs q := by
  have hp : ∀ a b, parentOf window recs a = some b → b ∈ idsFin recs :=
    fun a b hab => parentOf_known window recs a b hab
  have hanc : ancestors window recs x = insert x (ancestors window recs q) := by
    unfold ancestors
    have h1 : ancSet (parentOf window recs) (fuelOf recs + 1) x =
        ancSet (parentOf window recs) (fuelOf recs) x :=
      ancSet_stable (parentOf window recs) (idsFin recs) hp x hx (Nat.le_succ _)
    rw [← h1]
    simp [ancSet, h]
  have hterm : termSet window recs x = termSet window recs q := by
    unfold termSet
    rw [hanc, Finset.filter_insert]
    by_cases hT : isTerminal window recs x = true
    · rw [if_pos hT]
      have hsr : x ∈ ancestors window recs q := by
        unfold isTerminal at hT
        rw [h] at hT
        simp only [Option.isNone_some, Bool.false_or] at hT
        unfold selfReach at hT
        rw [h] at hT
        simpa using hT
      exact Finset.insert_eq_self.mpr (Finset.mem_filter.mpr ⟨hsr, hT⟩)
    · rw [if_neg hT]
  unfold rootKey
  rw [hterm]

theorem find_id_of_nodup {recs : List MailRecord}
    (h : (recs.map (fun r => r.id)).Nodup) {r : MailRecord} (hr : r ∈ recs) :
    recs.find? (fun s => decide (s.id = r.id)) = some r := by
  induction recs with
  | nil => cases hr
  | cons a rest ih =>
    rw [List.map_cons, List.nodup_cons] at h
    rcases List.mem_cons.mp hr with rfl | hr'
    · rw [List.find?_cons_of_pos _ (by simp)]
    · have hne : ¬ (a.id = r.id) := by
        intro he
        exact h.1 (he ▸ List.mem_map_of_mem _ hr')
      rw [List.find?_cons_of_neg _ (by simpa using hne)]
      exact ih h.2 hr'

theorem mem_sortRecs {l : List MailRecord} {r : MailRecord} :
    r ∈ sortRecs l ↔ r ∈ l :=
  (sortRecs_perm l).mem_iff

/-- Every record of the (deduplicated) record set appears in the thread
labelled with its own root key. -/
theorem mem_own_thread (window : Nat) (sourceFile : String)
    (recs : List MailRecord) {r : MailRecord} (hr : r ∈ recs) :
    r ∈ (mkThread window sourceFile recs (recKey window recs r)).records := by
  unfold mkThread
  simp only
  rw [mem_sortRecs]
  exact List.mem_filter.mpr ⟨hr, by simp⟩

theorem thread_mem_assemble (window : Nat) (sourceFile : String)
    (input : List MailRecord) {r : MailRecord} (hr : r ∈ (dedupe input).1) :
    mkThread window sourceFile (dedupe input).1
        (recKey window (dedupe input).1 r) ∈ (assemble window sourceFile input).1 := by
  unfold assemble
  simp only
  exact List.mem_map_of_mem _ (List.mem_dedup.mpr (List.mem_map_of_mem _ hr))

theorem resolveParent_inReplyTo (window : Nat) (recs : List MailRecord)
    (r : MailRecord) (i : String) (hirt : r.inReplyTo = some i)
    (hk : isKnown recs i = true) (hne : i ≠ r.id) :
    resolveParent window recs r = ⟨some i, false⟩ := by
  unfold resolveParent
  simp only [hirt]
  rw [if_pos hk, if_neg hne]

theorem parentOf_eq (window : Nat) {recs : List MailRecord}
    (h : (recs.map (fun r => r.id)).Nodup) {r : MailRecord} (hr : r ∈ recs) :
    parentOf window recs r.id = (resolveParent window recs r).parent := by
  unfold parentOf
  rw [find_id_of_nodup h hr]
  rfl

theorem mem_thread_of_key (window : Nat) (sf : String)
    (recs : List MailRecord) {r : MailRecord} (hr : r ∈ recs)
    {k : Option String} (hk : recKey window recs r = k) :
    r ∈ (mkThread window sf recs k).records := by
  unfold mkThread
  simp only
  rw [mem_sortRecs]
  exact List.mem_filter.mpr ⟨hr, by simp [hk]⟩

theorem thread_records_sorted (window : Nat) (sf : String)
    (recs : List MailRecord) (k : Option String) :
    (mkThread window sf recs k).records.Pairwise (fun a b => keyLE a b = true) := by
  unfold mkThread
  simp only
  exact sortRecs_sorted _

theorem before_in_sorted {l : List MailRecord}
    (hs : l.Pairwise (fun a b => keyLE a b = true)) {P R : MailRecord}
    (hP : P ∈ l) (hR : R ∈ l) (hne : P ≠ R) (hlt : keyLE R P = false) :
    ∃ i j, ∃ (hi : i < l.length) (hj : j < l.length),
      i < j ∧ l.get ⟨i, hi⟩ = P ∧ l.get ⟨j, hj⟩ = R := by
  rcases List.mem_iff_get.mp hP with ⟨⟨i, hi⟩, hPi⟩
  rcases List.mem_iff_get.mp hR with ⟨⟨j, hj⟩, hRj⟩
  have hij : i ≠ j := by
    rintro rfl
    exact hne (hPi ▸ hRj ▸ rfl)
  rcases Nat.lt_or_ge i j with hij' | hij'
  · exact ⟨i, j, hi, hj, hij', hPi, hRj⟩
  · have hji : j < i := lt_of_le_of_ne hij' (Ne.symm hij)
    have hkey := (List.pairwise_iff_get.mp hs) ⟨j, hj⟩ ⟨i, hi⟩ hji
    rw [hRj, hPi] at hkey
    rw [hkey] at hlt
    cases hlt

theorem resolveParent_orphan (window : Nat) (recs : List MailRecord)
    (r : MailRecord) (hmark : hasMarker r = true)
    (hirt : ∀ i, r.inReplyTo = some i → isKnown recs i = false)
    (href : ∀ c ∈ r.references, isKnown recs c = false) :
    resolveParent window recs r = ⟨none, true⟩ := by
  have hlk : lastKnownRef recs r = none := by
    unfold lastKnownRef
    have hfil : r.references.filter (fun i => isKnown recs i) = [] := by
      rw [List.filter_eq_nil_iff]
      intro c hc
      simp [href c hc]
    rw [hfil]
    rfl
  have htail : resolveTail window recs r = ⟨none, true⟩ := by
    unfold resolveTail
    simp only [hlk]
    rw [if_pos hmark]
  unfold resolveParent
  cases hi : r.inReplyTo with
  | none => simp only [hi]; exact htail
  | some i =>
    simp only [hi]
    rw [if_neg (by simp [hirt i hi]), htail]

/-! ### Claim theorems: assembly -/
/-- C1, counterexample: with parent "a" (timestamp 10) and reply "b"
(`inReplyTo = "a"`, timestamp 5), `assemble` puts both in one thread but
exports the reply BEFORE its parent, because intra-thread order is by
timestamp only (§4.3 step 4).  So "R appears after P in the exported
order" is false as stated. -/
theorem claim_C1_counterexample :
    ((assemble 0 "f" [⟨"a", none, [], "s", "au", some 10, "x"⟩,
        ⟨"b", some "a", [], "s", "au", some 5, "y"⟩]).1.map
      (fun T => T.records.map (fun r => r.id))) = [["b", "a"]] := by decide

/-- C1 (amended): for records with unique ids, a record R whose
`inReplyTo` names the id of a known record P lands in the same thread as
P; moreover R appears after P in that thread's exported order whenever P
precedes R under the intra-thread sort key (timestamp ascending, missing
timestamps last, ties by lexical id). -/
theorem claim_C1_reply_linked (window : Nat) (sf : String)
    (input : List MailRecord) (R P : MailRecord)
    (hnd : (input.map (fun r => r.id)).Nodup)
    (hR : R ∈ input) (hP : P ∈ input) (hirt : R.inReplyTo = some P.id)
    (hne : R.id ≠ P.id) :
    ∃ T ∈ (assemble window sf input).1, P ∈ T.records ∧ R ∈ T.records ∧
      (keyLE P R = true →
        ∃ i j, ∃ (hi : i < T.records.length) (hj : j < T.records.length),
          i < j ∧ T.records.get ⟨i, hi⟩ = P ∧ T.records.get ⟨j, hj⟩ = R) := by
  have hrecs : (dedupe input).1 = input := by rw [dedupe_of_nodup hnd]
  have hkP : isKnown input P.id = true := (isKnown_iff input P.id).mpr ⟨P, hP, rfl⟩
  have hres : resolveParent window input R = ⟨some P.id, false⟩ :=
    resolveParent_inReplyTo window input R P.id hirt hkP (fun he => hne he.symm)
  have hpar : parentOf window input R.id = some P.id := by
    rw [parentOf_eq window hnd hR, hres]
  have hRknown : R.id ∈ idsFin input :=
    (mem_idsFin_iff input R.id).mpr ((isKnown_iff input R.id).mpr ⟨R, hR, rfl⟩)
  have hkeyeq : recKey window input R = recKey window input P :=
    rootKey_parent window input R.id P.id hRknown hpar
  refine ⟨mkThread window sf input (recKey window input R), ?_, ?_, ?_, ?_⟩
  · have hmem := thread_mem_assemble window sf input (r := R)
      (by rw [hrecs]; exact hR)
    rw [hrecs] at hmem
    exact hmem
  · exact mem_thread_of_key window sf input hP hkeyeq.symm
  · exact mem_thread_of_key window sf input hR rfl
  · intro hle
    have hsorted := thread_records_sorted window sf input (recKey window input R)
    have hPneR : P ≠ R := fun he => hne (congrArg MailRecord.id he.symm)
    have hfalse : keyLE R P = false := by
      cases hrp : keyLE R P with
      | false => rfl
      | true => exact absurd (keyLE_antisymm_id R P hrp hle) hne
    exact before_in_sorted hsorted (mem_thread_of_key window sf input hP hkeyeq.symm)
      (mem_thread_of_key window sf input hR rfl) hPneR hfalse

/-- C1 witness: the amended theorem applied to a parent (timestamp 1) and
its reply (timestamp 2). -/
theorem claim_C1_reply_linked_witness :
    ∃ T ∈ (assemble 0 "f" [⟨"a", none, [], "s", "au", some 1, "x"⟩,
        ⟨"b", some "a", [], "s", "au", some 2, "y"⟩]).1,
      (⟨"a", none, [], "s", "au", some 1, "x"⟩ : MailRecord) ∈ T.records ∧
      (⟨"b", some "a", [], "s", "au", some 2, "y"⟩ : MailRecord) ∈ T.records ∧
      (keyLE ⟨"a", none, [], "s", "au", some 1, "x"⟩
          ⟨"b", some "a", [], "s", "au", some 2, "y"⟩ = true →
        ∃ i j, ∃ (hi : i < T.records.length) (hj : j < T.records.length),
          i < j ∧ T.records.get ⟨i, hi⟩ = ⟨"a", none, [], "s", "au", some 1, "x"⟩ ∧
            T.records.get ⟨j, hj⟩ = ⟨"b", some "a", [], "s", "au", some 2, "y"⟩) :=
  claim_C1_reply_linked 0 "f"
    [⟨"a", none, [], "s", "au", some 1, "x"⟩,
      ⟨"b", some "a", [], "s", "au", some 2, "y"⟩]
    ⟨"b", some "a", [], "s", "au", some 2, "y"⟩
    ⟨"a", none, [], "s", "au", some 1, "x"⟩
    (by decide) (by decide) (by decide) (by decide) (by decide)

/-- C2: every thread produced by `assemble` has its records sorted
non-decreasingly by the intra-thread key; that key orders by timestamp
ascending with missing timestamps after all present ones and ties broken
by lexical id; and the sorted order is a function of the record set only
(identical for any two parse orders of the same records). -/
theorem claim_C2_thread_order (window : Nat) (sf : String)
    (input : List MailRecord) :
    (∀ T ∈ (assemble window sf input).1,
        T.records.Pairwise (fun a b => keyLE a b = true))
    ∧ (∀ a b : MailRecord, keyLE a b = true ↔
        (match a.timestamp, b.timestamp with
          | some x, some y => x < y ∨ (x = y ∧ a.id ≤ b.id)
          | some _, none => True
          | none, some _ => False
          | none, none => a.id ≤ b.id))
    ∧ (∀ l₁ l₂ : List MailRecord, List.Perm l₁ l₂ →
        (l₁.map (fun r => r.id)).Nodup → sortRecs l₁ = sortRecs l₂) := by
  refine ⟨?_, keyLE_iff, fun l₁ l₂ hp h => sortRecs_eq_of_perm hp h⟩
  intro T hT
  unfold assemble at hT
  simp only [List.mem_map] at hT
  obtain ⟨k, _, rfl⟩ := hT
  exact thread_records_sorted window sf (dedupe input).1 k

/-- C2 witness: the determinism clause applied to two parse orders of the
same two records, and the sortedness clause on the resulting thread. -/
theorem claim_C2_thread_order_witness :
    sortRecs [⟨"a", none, [], "s", "au", some 9, "x"⟩,
        ⟨"b", none, [], "s", "au", some 3, "y"⟩] =
      sortRecs [⟨"b", none, [], "s", "au", some 3, "y"⟩,
        ⟨"a", none, [], "s", "au", some 9, "x"⟩] :=
  (claim_C2_thread_order 0 "f" []).2.2
    [⟨"a", none, [], "s", "au", some 9, "x"⟩,
      ⟨"b", none, [], "s", "au", some 3, "y"⟩]
    [⟨"b", none, [], "s", "au", some 3, "y"⟩,
      ⟨"a", none, [], "s", "au", some 9, "x"⟩]
    (by decide) (by decide)

/-- C6: a record whose reply markers are syntactically present but name
no known id becomes the root of its own thread, flagged `orphan = true`,
with the record (its reply markers intact) among the thread's records. -/
theorem claim_C6_orphan_root (window : Nat) (sf : String)
    (input : List MailRecord) (r : MailRecord)
    (hnd : (input.map (fun s => s.id)).Nodup) (hr : r ∈ input)
    (hmark : hasMarker r = true)
    (hirt : ∀ i, r.inReplyTo = some i → isKnown input i = false)
    (href : ∀ c ∈ r.references, isKnown input c = false) :
    ∃ T ∈ (assemble window sf input).1,
      T.rootId = some r.id ∧ T.orphan = true ∧ r ∈ T.records := by
  have hrecs : (dedupe input).1 = input := by rw [dedupe_of_nodup hnd]
  have hres : resolveParent window input r = ⟨none, true⟩ :=
    resolveParent_orphan window input r hmark hirt href
  have hpar : parentOf window input r.id = none := by
    rw [parentOf_eq window hnd hr, hres]
  have hkey : recKey window input r = some r.id :=
    rootKey_of_parentless window input r.id
      ((isKnown_iff input r.id).mpr ⟨r, hr, rfl⟩) hpar
  refine ⟨mkThread window sf input (recKey window input r), ?_, ?_, ?_, ?_⟩
  · have hmem := thread_mem_assemble window sf input (r := r)
      (by rw [hrecs]; exact hr)
    rw [hrecs] at hmem
    exact hmem
  · rw [show (mkThread window sf input (recKey window input r)).rootId =
      recKey window input r from rfl, hkey]
  · rw [hkey]
    show (mkThread window sf input (some r.id)).orphan = true
    unfold mkThread
    simp only
    rw [find_id_of_nodup hnd hr]
    simp only [Option.map_some', Option.getD_some]
    rw [hres]
  · exact mem_thread_of_key window sf input hr rfl

/-- C6 witness: the theorem applied to scenario B of the spec — a single
record with id "4" and `inReplyTo = "99"` where 99 is absent. -/
theorem claim_C6_orphan_root_witness :
    ∃ T ∈ (assemble 0 "f" [⟨"4", some "99", [], "s", "au", some 1, "x"⟩]).1,
      T.rootId = some "4" ∧ T.orphan = true ∧
        (⟨"4", some "99", [], "s", "au", some 1, "x"⟩ : MailRecord) ∈ T.records :=
  claim_C6_orphan_root 0 "f" [⟨"4", some "99", [], "s", "au", some 1, "x"⟩]
    ⟨"4", some "99", [], "s", "au", some 1, "x"⟩
    (by decide) (by decide) (by decide)
    (fun i hi => by cases hi; decide)
    (fun c hc => nomatch hc)

/-- C9: duplicate-id elimination — the deduplicated record set entering
assembly has unique ids, is a subsequence of the input, its length plus
the drop count is the input length, and for every input record's id the
kept record is the FIRST input record bearing that id (so the second
occurrence of a duplicated id is the one dropped). -/
theorem claim_C9_duplicate_ids (input : List MailRecord) :
    ((dedupe input).1.map (fun r => r.id)).Nodup
    ∧ (dedupe input).1.Sublist input
    ∧ (dedupe input).2 + (dedupe input).1.length = input.length
    ∧ (∀ r ∈ input,
        (dedupe input).1.find? (fun s => decide (s.id = r.id)) =
          input.find? (fun s => decide (s.id = r.id))) := by
  refine ⟨dedupeGo_nodup input [], dedupeGo_sublist input [],
    dedupeGo_count input [], ?_⟩
  intro r _
  exact dedupeGo_find input r.id [] (by simp)

/-- C9 witness: the theorem applied to an input with a duplicated id
"1"; only the first occurrence is kept. -/
theorem claim_C9_duplicate_ids_witness :
    (dedupe [⟨"1", none, [], "s", "au", some 1, "x"⟩,
        ⟨"1", none, [], "s", "au", some 2, "y"⟩]).1.find?
      (fun s => decide (s.id = "1")) =
        some ⟨"1", none, [], "s", "au", some 1, "x"⟩ := by
  have h := (claim_C9_duplicate_ids
    [⟨"1", none, [], "s", "au", some 1, "x"⟩,
      ⟨"1", none, [], "s", "au", some 2, "y"⟩]).2.2.2
    ⟨"1", none, [], "s", "au", some 1, "x"⟩ (by decide)
  rw [h]
  decide

/-- C5: the matcher answers exactly "does any dictionary pattern occur as
a substring of the text", case-insensitively (lowercasing only). -/
theorem claim_C5_match_substring (dict : List String) (_hne : dict ≠ [])
    (text : String) :
    (PatternAutomaton.build dict).matchText text = true ↔
      ∃ p ∈ dict, List.IsInfix (lowerChars p) (lowerChars text) := by
  unfold PatternAutomaton.build PatternAutomaton.matchText
  simp only
  rw [scanFrom_iff]
  constructor
  · rintro ⟨q, hq, hinf⟩
    rcases List.mem_map.mp hq with ⟨p, hp, rfl⟩
    exact ⟨p, hp, hinf⟩
  · rintro ⟨p, hp, hinf⟩
    exact ⟨lowerChars p, List.mem_map_of_mem _ hp, hinf⟩

/-- C5 witness: the theorem applied to the dictionary containing "Spam"
and a text containing "SPAM" in different case. -/
theorem claim_C5_match_substring_witness :
    (PatternAutomaton.build ["Spam"]).matchText "no SPAM here" = true :=
  (claim_C5_match_substring ["Spam"] (by decide) "no SPAM here").mpr
    ⟨"Spam", by decide, by decide⟩

/-! ### Claim theorems: filtering, export and the file driver -/
theorem keptRecords_filterThread (aut : PatternAutomaton) (t : Thread) :
    keptRecords (filterThread aut t) =
      t.records.filter (fun r => !aut.matchText r.body) := by
  unfold filterThread keptRecords
  simp only
  induction t.records with
  | nil => rfl
  | cons r rest ih =>
    simp only [List.map_cons, List.filterMap_cons, List.filter_cons]
    by_cases h : aut.matchText r.body
    · simp only [h, if_pos rfl]
      simpa using ih
    · simp only [h]
      simp only [Bool.not_false, if_pos rfl, Bool.false_eq_true, if_neg]
      simpa using ih

/-- C3: filtering drops records in place: the filtered thread keeps one
entry per record at the same position (a dropped record leaves a
positional marker, it is not removed from the structure), the surviving
records are exactly the non-matching records in unchanged relative order
— a sublist of the thread order, so surviving descendants of a dropped
record keep their positions relative to all other survivors — and the
exported text is the concatenation of the surviving records' blocks
only, so a dropped record contributes no attribution line. -/
theorem claim_C3_drop_in_place (aut : PatternAutomaton) (t : Thread) :
    (filterThread aut t).entries.length = t.records.length
    ∧ (∀ i : Nat, (filterThread aut t).entries[i]? =
        (t.records[i]?).map (fun r =>
          if aut.matchText r.body then FilterEntry.dropped r.id
          else FilterEntry.kept r))
    ∧ keptRecords (filterThread aut t) =
        t.records.filter (fun r => !aut.matchText r.body)
    ∧ (keptRecords (filterThread aut t)).Sublist t.records
    ∧ exportString (filterThread aut t) =
        String.join
          ((t.records.filter (fun r => !aut.matchText r.body)).map renderBlock) := by
  refine ⟨by simp [filterThread], ?_, keptRecords_filterThread aut t, ?_, ?_⟩
  · intro i
    simp [filterThread]
  · rw [keptRecords_filterThread aut t]
    exact List.filter_sublist t.records
  · unfold exportString
    rw [keptRecords_filterThread aut t]

/-- C3 witness: the theorem applied to a two-record thread whose second
record matches the dictionary; the survivors are exactly the first
record. -/
theorem claim_C3_drop_in_place_witness :
    keptRecords (filterThread (PatternAutomaton.build ["spamword"])
        ⟨some "a", false, "f",
          [⟨"a", none, [], "s", "au", some 1, "hello"⟩,
            ⟨"b", some "a", [], "s", "au", some 2, "has spamword inside"⟩]⟩) =
      [⟨"a", none, [], "s", "au", some 1, "hello"⟩] := by
  rw [(claim_C3_drop_in_place (PatternAutomaton.build ["spamword"])
    ⟨some "a", false, "f",
      [⟨"a", none, [], "s", "au", some 1, "hello"⟩,
        ⟨"b", some "a", [], "s", "au", some 2, "has spamword inside"⟩]⟩).2.2.1]
  decide

theorem length_filter_not_add_length_filter {α : Type} (p : α → Bool) :
    ∀ l : List α,
      (l.filter (fun a => !p a)).length + (l.filter p).length = l.length
  | [] => rfl
  | a :: rest => by
    have ih := length_filter_not_add_length_filter p rest
    cases h : p a with
    | true =>
      simp [List.filter_cons, h]
      omega
    | false =>
      simp [List.filter_cons, h]
      omega

theorem splitFiltered_eq (l : List FilteredThread) :
    splitFiltered l =
      (l.filter (fun ft => !allDropped ft),
        (l.filter (fun ft => allDropped ft)).length) := by
  induction l with
  | nil => rfl
  | cons ft rest ih =>
    simp only [splitFiltered, ih, List.filter_cons]
    by_cases h : allDropped ft
    · simp [h]
    · simp [h]

/-- C4: a thread in which every record is dropped is excluded from the
forum output entirely and counted: the engine's outputs are exactly the
filtered threads with a survivor, in order; the fully-filtered count is
the number of threads with no survivor; every emitted thread has a
survivor; and outputs plus count account for every assembled thread. -/
theorem claim_C4_fully_filtered (window : Nat) (aut : PatternAutomaton)
    (sf : String) (input : List MailRecord) :
    (processForum window aut sf input).1 =
      ((assemble window sf input).1.map (fun t => filterThread aut t)).filter
        (fun ft => !allDropped ft)
    ∧ (processForum window aut sf input).2.fullyFiltered =
      (((assemble window sf input).1.map (fun t => filterThread aut t)).filter
        (fun ft => allDropped ft)).length
    ∧ (∀ ft ∈ (processForum window aut sf input).1, allDropped ft = false)
    ∧ (processForum window aut sf input).1.length +
        (processForum window aut sf input).2.fullyFiltered =
      (assemble window sf input).1.length := by
  have h1 : (processForum window aut sf input).1 =
      ((assemble window sf input).1.map (fun t => filterThread aut t)).filter
        (fun ft => !allDropped ft) := by
    unfold processForum
    simp only
    rw [splitFiltered_eq]
  have h2 : (processForum window aut sf input).2.fullyFiltered =
      (((assemble window sf input).1.map (fun t => filterThread aut t)).filter
        (fun ft => allDropped ft)).length := by
    unfold processForum
    simp only
    rw [splitFiltered_eq]
  refine ⟨h1, h2, ?_, ?_⟩
  · intro ft hft
    rw [h1] at hft
    have := (List.mem_filter.mp hft).2
    simpa using this
  · rw [h1, h2]
    have hsum := length_filter_not_add_length_filter
      (fun ft => allDropped ft)
      ((assemble window sf input).1.map (fun t => filterThread aut t))
    rw [List.length_map] at hsum
    exact hsum

/-- C4 witness: the theorem applied to a one-record forum whose only
body matches the dictionary — the output is empty and the
fully-filtered count is 1. -/
theorem claim_C4_fully_filtered_witness :
    (processForum 0 (PatternAutomaton.build ["x"]) "f"
        [⟨"1", none, [], "s", "au", some 1, "axa"⟩]).1 = [] ∧
    (processForum 0 (PatternAutomaton.build ["x"]) "f"
        [⟨"1", none, [], "s", "au", some 1, "axa"⟩]).2.fullyFiltered = 1 := by
  have h := claim_C4_fully_filtered 0 (PatternAutomaton.build ["x"]) "f"
    [⟨"1", none, [], "s", "au", some 1, "axa"⟩]
  refine ⟨?_, ?_⟩
  · rw [h.1]
    decide
  · rw [h.2.1]
    decide

/-- C7: each archive file contributes exactly one log line —
`Error <file>: <message>` on a failure, with no output rows for that
file, or `Success <file>: includes <threadCount>` on success — and the
loop always continues with the remaining files, whose lines and rows
appear unchanged after a failure. -/
theorem claim_C7_per_file_report (window : Nat) (aut : PatternAutomaton)
    (files : List FileInput) :
    (processAll window aut files).2 =
      files.map (fun fi =>
        match fi.parseResult with
        | Except.error e => "Error " ++ fi.name ++ ": " ++ e
        | Except.ok recs =>
          "Success " ++ fi.name ++ ": includes " ++
            toString ((processForum window aut fi.name recs).1.length))
    ∧ (processAll window aut files).1 =
      files.flatMap (fun fi =>
        match fi.parseResult with
        | Except.error _ => []
        | Except.ok recs =>
          rowsOf fi.name ((processForum window aut fi.name recs).1)) := by
  induction files with
  | nil => exact ⟨rfl, rfl⟩
  | cons fi rest ih =>
    refine ⟨?_, ?_⟩
    · simp only [processAll, List.map_cons]
      rw [← ih.1]
      cases h : fi.parseResult with
      | error e => simp [processFile, h]
      | ok recs => simp [processFile, h]
    · simp only [processAll, List.flatMap_cons]
      rw [← ih.2]
      cases h : fi.parseResult with
      | error e => simp [processFile, h]
      | ok recs => simp [processFile, h]

/-- C8: the automaton build fails with a ConfigurationError exactly on an
empty dictionary, in which case the whole run aborts before processing
any file; on a nonempty dictionary the run succeeds unconditionally —
whatever the per-file outcomes — processing every file with the single
automaton built once up front. -/
theorem claim_C8_configuration (window : Nat) (dict : List String)
    (files : List FileInput) :
    (dict = [] →
      runUsenet window dict files =
        Except.error "ConfigurationError: empty pattern dictionary")
    ∧ (dict ≠ [] →
      runUsenet window dict files =
        Except.ok (processAll window (PatternAutomaton.build dict) files)) := by
  constructor
  · rintro rfl
    rfl
  · intro h
    unfold runUsenet getBadStringsAutomaton
    rw [if_neg (by simpa using h)]

/-- C8 witness: the theorem applied to the empty dictionary (the run
aborts) and to a one-pattern dictionary with a failing file (the run
still succeeds). -/
theorem claim_C8_configuration_witness :
    runUsenet 0 [] [⟨"f.mbox", Except.error "boom"⟩] =
      Except.error "ConfigurationError: empty pattern dictionary" ∧
    runUsenet 0 ["x"] [⟨"f.mbox", Except.error "boom"⟩] =
      Except.ok (processAll 0 (PatternAutomaton.build ["x"])
        [⟨"f.mbox", Except.error "boom"⟩]) :=
  ⟨(claim_C8_configuration 0 [] [⟨"f.mbox", Except.error "boom"⟩]).1 rfl,
    (claim_C8_configuration 0 ["x"] [⟨"f.mbox", Except.error "boom"⟩]).2
      (by decide)⟩

theorem find_upsert (k v : String) :
    ∀ m : List (String × String),
      (upsert m k v).find? (fun p => decide (p.1 = k)) = some (k, v)
  | [] => by
    unfold upsert
    simp
  | q :: rest => by
    have ih := find_upsert k v rest
    unfold upsert
    by_cases hq : q.1 = k
    · have hfind : (q :: rest).find? (fun p => decide (p.1 = k)) = some q :=
        List.find?_cons_of_pos _ (by simpa using hq)
      rw [hfind]
      simp only [Option.isSome_some, if_pos]
      rw [List.map_cons, if_pos hq]
      exact List.find?_cons_of_pos _ (by simp)
    · have hfind : (q :: rest).find? (fun p => decide (p.1 = k)) =
          rest.find? (fun p => decide (p.1 = k)) :=
        List.find?_cons_of_neg _ (by simpa using hq)
      rw [hfind]
      unfold upsert at ih
      cases ht : (rest.find? (fun p => decide (p.1 = k))).isSome with
      | true =>
        rw [if_pos ht] at ih
        rw [if_pos rfl]
        rw [List.map_cons, if_neg hq,
          List.find?_cons_of_neg _ (by simpa using hq)]
        exact ih
      | false =>
        rw [if_neg (by simp [ht])] at ih
        rw [if_neg (by simp : ¬ (false = true))]
        rw [List.cons_append, List.find?_cons_of_neg _ (by simpa using hq)]
        exact ih

/-- C10: for an mbox file processed without exception, the emitted
output has exactly one (metadata, content) row per thread returned by
the engine; row i's metadata and content are both derived from thread i;
and every row's metadata carries a `forum_name` key whose value is the
basename of the source mbox file. -/
theorem claim_C10_output_rows (window : Nat) (aut : PatternAutomaton)
    (fi : FileInput) (recs : List MailRecord)
    (hok : fi.parseResult = Except.ok recs) :
    (processFile window aut fi).1.length =
      (processForum window aut fi.name recs).1.length
    ∧ (∀ i : Nat, (processFile window aut fi).1[i]? =
        ((processForum window aut fi.name recs).1[i]?).map (fun ft =>
          (upsert (metaOf ft) "forum_name" (basename fi.name),
            exportString ft)))
    ∧ (∀ row ∈ (processFile window aut fi).1,
        row.1.find? (fun p => decide (p.1 = "forum_name")) =
          some ("forum_name", basename fi.name)) := by
  have hpf : (processFile window aut fi).1 =
      rowsOf fi.name ((processForum window aut fi.name recs).1) := by
    unfold processFile
    rw [hok]
  refine ⟨?_, ?_, ?_⟩
  · rw [hpf]
    unfold rowsOf
    rw [List.length_map]
  · intro i
    rw [hpf]
    unfold rowsOf
    rw [List.getElem?_map]
  · intro row hrow
    rw [hpf] at hrow
    unfold rowsOf at hrow
    rcases List.mem_map.mp hrow with ⟨ft, _, rfl⟩
    exact find_upsert "forum_name" (basename fi.name) (metaOf ft)

/-- C10 witness: the theorem applied to a successfully processed
one-record file named "dir/group.mbox". -/
theorem claim_C10_output_rows_witness :
    (processFile 0 (PatternAutomaton.build ["zzz"])
        ⟨"dir/group.mbox",
          Except.ok [⟨"1", none, [], "s", "au", some 1, "hello"⟩]⟩).1.length = 1 ∧
    (processFile 0 (PatternAutomaton.build ["zzz"])
        ⟨"dir/group.mbox",
          Except.ok [⟨"1", none, [], "s", "au", some 1, "hello"⟩]⟩).1[0]? =
      ((processForum 0 (PatternAutomaton.build ["zzz"]) "dir/group.mbox"
          [⟨"1", none, [], "s", "au", some 1, "hello"⟩]).1[0]?).map (fun ft =>
        (upsert (metaOf ft) "forum_name" (basename "dir/group.mbox"),
          exportString ft)) := by
  have h := claim_C10_output_rows 0 (PatternAutomaton.build ["zzz"])
    ⟨"dir/group.mbox", Except.ok [⟨"1", none, [], "s", "au", some 1, "hello"⟩]⟩
    [⟨"1", none, [], "s", "au", some 1, "hello"⟩] rfl
  refine ⟨?_, h.2.1 0⟩
  rw [h.1]
  decide

end CodePile
